import Mathlib

/-!
Shallow embedding of the Explanation Alignment & Highlighting Engine
(`TokenHighlighter.create_highlighted_text` in `Dashboard/token_highlighter.py`).

Strings are modelled as lists of characters, scores as rationals, Python's
insertion-ordered dict as an association list with unique keys.
-/

namespace TokenHighlighter

abbrev Str := List Char

/-- One output unit of the engine: `(text_segment, color, score)`. -/
structure Segment where
  text : Str
  color : Str
  score : ℚ
  deriving DecidableEq

/-- The literal plain-segment color `"#000000"` used by the source. -/
def black : Str := "#000000".toList

/-- The default special-token set `{"[CLS]", "[SEP]", "[PAD]", "[UNK]"}`. -/
def defaultSpecial : List Str := ["[CLS]", "[SEP]", "[PAD]", "[UNK]"].map String.toList

/-- `s.lower()` modelled character-wise. -/
def toLowerStr (s : Str) : Str := s.map Char.toLower

/-- `s.strip()`: drop leading and trailing whitespace. -/
def stripWs (s : Str) : Str :=
  ((s.dropWhile Char.isWhitespace).reverse.dropWhile Char.isWhitespace).reverse

/-- `token.lower().strip()`, the key-cleaning used by the aggregator. -/
def cleanTok (t : Str) : Str := stripWs (toLowerStr t)

/-- Lookup in the ordered map: first binding for `k`, as in a Python dict. -/
def findScore (m : List (Str × ℚ)) (k : Str) : Option ℚ :=
  (m.find? (fun kv => decide (kv.1 = k))).map Prod.snd

/-- `token_score_map[token]` with a (never-hit) default. -/
def lookupD (m : List (Str × ℚ)) (k : Str) (d : ℚ) : ℚ := (findScore m k).getD d

/-- State of the aggregation loop: `token_score_map`, `scores_list`, `current_token`. -/
structure AggState where
  map : List (Str × ℚ)
  scores : List ℚ
  current : Str
  deriving DecidableEq

/-- `if tok and tok not in token_score_map: token_score_map[tok] = v; scores_list.append(v)`. -/
def recordToken (st : AggState) (k : Str) (v : ℚ) : AggState :=
  if k ≠ [] ∧ ¬ ∃ kv ∈ st.map, kv.1 = k then
    { st with map := st.map ++ [(k, v)], scores := st.scores ++ [v] }
  else st

/-- One iteration of the aggregation loop over `(token, score)` pairs:
skip special tokens; a `##`-continuation extends `current_token`; otherwise
finalize the pending accumulator (with the incoming score) and start a new word. -/
def aggStep (special : List Str) (st : AggState) (p : Str × ℚ) : AggState :=
  if p.1 ∈ special then st
  else if p.1.take 2 = ['#', '#'] then
    { st with current := st.current ++ p.1.drop 2 }
  else
    let st1 := if st.current ≠ [] then recordToken st (cleanTok st.current) p.2 else st
    let st2 := { st1 with current := cleanTok p.1 }
    recordToken st2 (cleanTok p.1) p.2

/-- `explanation[-1][1] if explanation else 0.0`. -/
def lastScoreOf (expl : List (Str × ℚ)) : ℚ :=
  match expl.getLast? with
  | some q => q.2
  | none => 0

/-- The whole aggregation phase, including the trailing
`token_score_map[current_token] = explanation[-1][1] if explanation else 0.0`. -/
def aggregate (expl : List (Str × ℚ)) (special : List Str) : AggState :=
  recordToken (expl.foldl (aggStep special) ⟨[], [], []⟩)
    (expl.foldl (aggStep special) ⟨[], [], []⟩).current (lastScoreOf expl)

/-- The `token_score_map` produced by aggregation. -/
def aggMap (expl : List (Str × ℚ)) (special : List Str) : List (Str × ℚ) :=
  (aggregate expl special).map

/-- The `scores_list` produced by aggregation. -/
def aggScores (expl : List (Str × ℚ)) (special : List Str) : List ℚ :=
  (aggregate expl special).scores

/-- `min(scores)` (only ever applied to a non-empty list in the source). -/
def listMin : List ℚ → ℚ
  | [] => 0
  | x :: xs => xs.foldl min x

/-- `max(scores)`. -/
def listMax : List ℚ → ℚ
  | [] => 0
  | x :: xs => xs.foldl max x

/-- The in-line min-max normalization of `token_score_map`. -/
def normalizeMap (m : List (Str × ℚ)) (scores : List ℚ) : List (Str × ℚ) :=
  if listMax scores ≠ listMin scores then
    m.map (fun kv => (kv.1, (kv.2 - listMin scores) / (listMax scores - listMin scores)))
  else
    m.map (fun kv => (kv.1, 1 / 2))

/-- `text_lower[p : p + len(w)] == w`. -/
def occursAt (tl w : Str) (p : ℕ) : Bool := decide ((tl.drop p).take w.length = w)

/-- Python `text_lower.find(w, start)`: least position `p ≥ start` where `w` occurs. -/
def strFind (tl w : Str) (start : ℕ) : Option ℕ :=
  (List.range (tl.length + 1)).find? (fun p => decide (start ≤ p) && occursAt tl w p)

/-- `text[j].isalnum()` (indices are in range wherever the source reads them). -/
def isAlnumAt (s : Str) (j : ℕ) : Bool := (s.getD j ' ').isAlphanum

/-- The word-boundary acceptance test of the locator:
`(pos == 0 or not text[pos-1].isalnum()) and (pos + len(w) >= len(text) or not text[pos+len(w)].isalnum())`. -/
def boundaryOk (text w : Str) (p : ℕ) : Bool :=
  (decide (p = 0) || !isAlnumAt text (p - 1)) &&
  (decide (text.length ≤ p + w.length) || !isAlnumAt text (p + w.length))

/-- The `while True` scanning loop of the locator, with explicit fuel
(the loop attempts strictly increasing start positions, so
`tl.length + 2` units of fuel always suffice). -/
def scanLoop (text tl w : Str) : ℕ → ℕ → List (ℕ × ℕ)
  | 0, _ => []
  | fuel + 1, start =>
    match strFind tl w start with
    | none => []
    | some pos =>
      (if boundaryOk text w pos then [(pos, pos + w.length)] else []) ++
        scanLoop text tl w fuel (pos + 1)

/-- All positions recorded for one word key. -/
def scanPositions (text tl w : Str) : List (ℕ × ℕ) := scanLoop text tl w (tl.length + 2) 0

/-- Stable insertion (descending by length) used to model
`sorted(keys, key=len, reverse=True)`. -/
def insertByLen (x : Str) : List Str → List Str
  | [] => [x]
  | y :: ys => if y.length < x.length then x :: y :: ys else y :: insertByLen x ys

/-- Stable sort of the word keys by decreasing length. -/
def sortKeysDesc (l : List Str) : List Str := l.foldr insertByLen []

/-- `token_positions`: each key with its (non-empty) position list, in sorted-key order. -/
def tokenPositions (text tl : Str) (keys : List Str) : List (Str × List (ℕ × ℕ)) :=
  keys.filterMap (fun w =>
    let ps := scanPositions text tl w
    if ps = [] then none else some (w, ps))

/-- The `(token, (start, end))` pairs in the exact order the nested
`for token, positions in token_positions.items(): for start, end in positions:`
loops visit them. -/
def spanList (tp : List (Str × List (ℕ × ℕ))) : List (Str × ℕ × ℕ) :=
  tp.flatMap (fun e => e.2.map (fun se => (e.1, se)))

/-- One step of the best-span search at offset `i`
(`if start == i and score > best_score: update`). -/
def pickStep (nmap : List (Str × ℚ)) (i : ℕ) (acc : Option Str × ℚ × ℕ)
    (x : Str × ℕ × ℕ) : Option Str × ℚ × ℕ :=
  if x.2.1 = i then
    if acc.2.1 < lookupD nmap x.1 0 then (some x.1, lookupD nmap x.1 0, x.2.2) else acc
  else acc

/-- The full best-span search, starting from `(None, -1, i + 1)`. -/
def pickFold (nmap : List (Str × ℚ)) (i : ℕ) (tp : List (Str × List (ℕ × ℕ))) :
    Option Str × ℚ × ℕ :=
  (spanList tp).foldl (pickStep nmap i) (none, -1, i + 1)

/-- `next_token_start`: smallest span start strictly greater than `i`, else `len(text)`. -/
def nextStart (textLen : ℕ) (tp : List (Str × List (ℕ × ℕ))) (i : ℕ) : ℕ :=
  (spanList tp).foldl (fun acc x => if i < x.2.1 ∧ x.2.1 < acc then x.2.1 else acc) textLen

/-- The offset the segment-building loop advances to from `i`. -/
def nextOffset (nmap : List (Str × ℚ)) (tp : List (Str × List (ℕ × ℕ)))
    (textLen i : ℕ) : ℕ :=
  match pickFold nmap i tp with
  | (some _, _, e) => e
  | (none, _, _) => nextStart textLen tp i

/-- `text[i:j]`. -/
def slice (s : Str) (i j : ℕ) : Str := (s.drop i).take (j - i)

/-- `int(x, 16)` on one hex digit (case-insensitive). -/
def hexVal (c : Char) : ℕ :=
  if c.isDigit then c.toNat - '0'.toNat else (Char.toLower c).toNat - 'a'.toNat + 10

/-- `int(s, 16)` on a hex string. -/
def hexPair (s : Str) : ℕ := s.foldl (fun a c => 16 * a + hexVal c) 0

/-- `hex_to_rgb`: strip leading `#`, parse three two-digit components. -/
def hexToRgb (h : Str) : ℕ × ℕ × ℕ :=
  let s := h.dropWhile (fun c => c = '#')
  (hexPair (s.take 2), hexPair ((s.drop 2).take 2), hexPair ((s.drop 4).take 2))

/-- Lower-case hex digit for `'%02x'` rendering. -/
def hexDigitChar (n : ℕ) : Char := "0123456789abcdef".toList.getD n '0'

/-- `'%02x' % n` for a byte value. -/
def byteHex (n : ℕ) : Str := [hexDigitChar (n / 16 % 16), hexDigitChar (n % 16)]

/-- `rgb_to_hex`. -/
def rgbToHex (rgb : ℕ × ℕ × ℕ) : Str :=
  '#' :: (byteHex rgb.1 ++ byteHex rgb.2.1 ++ byteHex rgb.2.2)

/-- `int(a + (b - a) * ratio)`: Python `int()` truncation of a non-negative value. -/
def chanInterp (a b : ℕ) (r : ℚ) : ℕ := (⌊(a : ℚ) + ((b : ℚ) - (a : ℚ)) * r⌋).toNat

/-- `interpolate_color`: clamp the ratio to [0,1] and interpolate each channel. -/
def interpolateColor (minC maxC : Str) (ratio : ℚ) : Str :=
  let r := max 0 (min 1 ratio)
  let a := hexToRgb minC
  let b := hexToRgb maxC
  rgbToHex (chanInterp a.1 b.1 r, chanInterp a.2.1 b.2.1 r, chanInterp a.2.2 b.2.2 r)

/-- The 0-or-1 segments one iteration of the segment-building loop appends. -/
def emitAt (minC maxC text : Str) (tp : List (Str × List (ℕ × ℕ)))
    (nmap : List (Str × ℚ)) (i : ℕ) : List Segment :=
  match pickFold nmap i tp with
  | (some _, sc, e) => [⟨slice text i e, interpolateColor minC maxC sc, sc⟩]
  | (none, _, _) =>
    let plain := slice text i (nextStart text.length tp i)
    if plain = [] then [] else [⟨plain, black, 0⟩]

/-- The `while i < len(text)` segment-building loop, with explicit fuel
(offsets strictly increase, so `len(text) + 1` units always suffice). -/
def buildLoop (minC maxC text : Str) (tp : List (Str × List (ℕ × ℕ)))
    (nmap : List (Str × ℚ)) : ℕ → ℕ → List Segment
  | 0, _ => []
  | fuel + 1, i =>
    if i < text.length then
      emitAt minC maxC text tp nmap i ++
        buildLoop minC maxC text tp nmap fuel (nextOffset nmap tp text.length i)
    else []

/-- The normalized `token_score_map` used by the locator and builder. -/
def pipelineNmap (expl : List (Str × ℚ)) (special : List Str) : List (Str × ℚ) :=
  normalizeMap (aggMap expl special) (aggScores expl special)

/-- `sorted_tokens`. -/
def pipelineKeys (expl : List (Str × ℚ)) (special : List Str) : List Str :=
  sortKeysDesc ((pipelineNmap expl special).map Prod.fst)

/-- `token_positions` for a concrete call. -/
def pipelineTp (text : Str) (expl : List (Str × ℚ)) (special : List Str) :
    List (Str × List (ℕ × ℕ)) :=
  tokenPositions text (toLowerStr text) (pipelineKeys expl special)

/-- `create_highlighted_text`. -/
def createHighlightedText (minC maxC text : Str) (expl : List (Str × ℚ))
    (special : List Str) : List Segment :=
  if aggScores expl special = [] ∨ aggMap expl special = [] then [⟨text, black, 0⟩]
  else if buildLoop minC maxC text (pipelineTp text expl special)
      (pipelineNmap expl special) (text.length + 1) 0 = [] then [⟨text, black, 0⟩]
  else buildLoop minC maxC text (pipelineTp text expl special)
    (pipelineNmap expl special) (text.length + 1) 0

/-- Default endpoint colors of the highlighter. -/
def defaultMinColor : Str := "#FFFFFF".toList

def defaultMaxColor : Str := "#FF0000".toList

/-- Concatenation of the text fields of a segment list. -/
def joinTexts (l : List Segment) : Str := (l.map Segment.text).flatten

/-! ### Facts about `strFind` (Python `str.find`) -/

lemma find?_range'_least (p : ℕ → Bool) :
    ∀ (n s a : ℕ), (List.range' s n).find? p = some a →
      ∀ b, s ≤ b → b < a → p b = false := by
  intro n
  induction n with
  | zero => intro s a h; simp [List.range'] at h
  | succ n ih =>
    intro s a h b hsb hba
    rw [List.range'_succ] at h
    by_cases hp : p s = true
    · rw [List.find?_cons_of_pos _ hp] at h
      injection h with h2
      omega
    · rw [List.find?_cons_of_neg _ hp] at h
      rcases Nat.eq_or_lt_of_le hsb with heq | hlt
      · subst heq; simpa using hp
      · exact ih (s + 1) a h b hlt hba

lemma occursAt_le {tl w : Str} {p : ℕ} (hw : w ≠ []) (h : occursAt tl w p = true) :
    p + w.length ≤ tl.length := by
  have heq : (tl.drop p).take w.length = w := by simpa [occursAt] using h
  have hlen : w.length ⊓ (tl.length - p) = w.length := by
    have := congrArg List.length heq
    simpa [List.length_take, List.length_drop] using this
  have hwpos : 0 < w.length := List.length_pos.mpr hw
  have h2 : w.length ⊓ (tl.length - p) ≤ tl.length - p := min_le_right _ _
  rw [hlen] at h2
  omega

lemma strFind_eq_some {tl w : Str} {start pos : ℕ} (h : strFind tl w start = some pos) :
    start ≤ pos ∧ pos ≤ tl.length ∧ occursAt tl w pos = true ∧
      ∀ q, start ≤ q → q < pos → occursAt tl w q = false := by
  have hp := List.find?_some h
  simp only [Bool.and_eq_true, decide_eq_true_eq] at hp
  have hmem := List.mem_of_find?_eq_some h
  have hlt : pos < tl.length + 1 := List.mem_range.mp hmem
  refine ⟨hp.1, by omega, hp.2, ?_⟩
  intro q hq hqp
  have hleast := find?_range'_least (fun r => decide (start ≤ r) && occursAt tl w r)
    (tl.length + 1) 0 pos (by rw [← List.range_eq_range']; exact h) q (Nat.zero_le q) hqp
  simp only [decide_eq_true hq, Bool.true_and] at hleast
  exact hleast

lemma strFind_eq_none {tl w : Str} {start : ℕ} (h : strFind tl w start = none) :
    ∀ q, start ≤ q → q ≤ tl.length → occursAt tl w q = false := by
  intro q hq hql
  have h2 := List.find?_eq_none.mp h q (List.mem_range.mpr (by omega))
  simp only [decide_eq_true hq, Bool.true_and, Bool.not_eq_true] at h2
  exact h2

lemma strFind_isSome {tl w : Str} {start p : ℕ} (h1 : start ≤ p) (h2 : p ≤ tl.length)
    (h3 : occursAt tl w p = true) : ∃ pos, strFind tl w start = some pos := by
  have : (strFind tl w start).isSome = true := by
    unfold strFind
    exact List.find?_isSome.mpr ⟨p, List.mem_range.mpr (by omega),
      by simp [h3, decide_eq_true h1]⟩
  exact Option.isSome_iff_exists.mp this

/-! ### Characterization of the scanning loop (Text Locator) -/

lemma mem_scanLoop {text tl w : Str} (hw : w ≠ []) :
    ∀ (fuel start : ℕ), tl.length + 1 ≤ fuel + start →
      ∀ p e, ((p, e) ∈ scanLoop text tl w fuel start ↔
        start ≤ p ∧ occursAt tl w p = true ∧ boundaryOk text w p = true ∧
          e = p + w.length) := by
  intro fuel
  induction fuel with
  | zero =>
    intro start hfs p e
    simp only [scanLoop, List.not_mem_nil, false_iff]
    rintro ⟨hsp, hocc, -, -⟩
    have := occursAt_le hw hocc
    have hwpos : 0 < w.length := List.length_pos.mpr hw
    omega
  | succ fuel ih =>
    intro start hfs p e
    cases hfind : strFind tl w start with
    | none =>
      rw [scanLoop, hfind]
      simp only [List.not_mem_nil, false_iff]
      rintro ⟨hsp, hocc, -, -⟩
      have hple : p ≤ tl.length := by
        have := occursAt_le hw hocc
        omega
      exact absurd hocc (by simp [strFind_eq_none hfind p hsp hple])
    | some pos =>
      rw [scanLoop, hfind]
      obtain ⟨hsp, hpl, hocc, hleast⟩ := strFind_eq_some hfind
      have hih := ih (pos + 1) (by omega)
      constructor
      · intro hmem
        rcases List.mem_append.mp hmem with hl | hr
        · by_cases hb : boundaryOk text w pos = true
          · simp only [hb, if_true, List.mem_singleton, Prod.mk.injEq] at hl
            obtain ⟨rfl, rfl⟩ := hl
            exact ⟨hsp, hocc, hb, rfl⟩
          · simp [hb] at hl
        · obtain ⟨h1, h2, h3, h4⟩ := (hih p e).mp hr
          exact ⟨by omega, h2, h3, h4⟩
      · rintro ⟨h1, h2, h3, rfl⟩
        rcases Nat.lt_or_ge p (pos + 1) with hlt | hge
        · have hpp : p = pos := by
            rcases Nat.lt_or_ge p pos with hc | hc
            · exact absurd h2 (by simp [hleast p h1 hc])
            · omega
          subst hpp
          exact List.mem_append.mpr (Or.inl (by simp [h3]))
        · exact List.mem_append.mpr (Or.inr ((hih p (p + w.length)).mpr
            ⟨hge, h2, h3, rfl⟩))

lemma mem_scanPositions {text tl w : Str} (hw : w ≠ []) {p e : ℕ} :
    (p, e) ∈ scanPositions text tl w ↔
      occursAt tl w p = true ∧ boundaryOk text w p = true ∧ e = p + w.length := by
  rw [scanPositions, mem_scanLoop hw (tl.length + 2) 0 (by omega)]
  simp

/-! ### Invariants of the Score Aggregator -/

/-- Every key of the accumulated map is non-empty and every value was also
appended to `scores_list`. -/
def AggInv (st : AggState) : Prop :=
  ∀ kv ∈ st.map, kv.1 ≠ [] ∧ kv.2 ∈ st.scores

lemma aggInv_recordToken {st : AggState} {k : Str} {v : ℚ} (h : AggInv st) :
    AggInv (recordToken st k v) := by
  unfold recordToken
  split
  · rename_i hcond
    intro kv hkv
    rcases List.mem_append.mp hkv with hold | hnew
    · exact ⟨(h kv hold).1, List.mem_append.mpr (Or.inl (h kv hold).2)⟩
    · simp only [List.mem_singleton] at hnew
      subst hnew
      exact ⟨hcond.1, List.mem_append.mpr (Or.inr (by simp))⟩
  · exact h

lemma aggInv_aggStep {special : List Str} {st : AggState} {p : Str × ℚ}
    (h : AggInv st) : AggInv (aggStep special st p) := by
  unfold aggStep
  split
  · exact h
  · split
    · exact h
    · apply aggInv_recordToken
      split

      · exact aggInv_recordToken h
      · exact h

lemma aggInv_foldl {special : List Str} :
    ∀ (expl : List (Str × ℚ)) (st : AggState), AggInv st →
      AggInv (expl.foldl (aggStep special) st) := by
  intro expl
  induction expl with
  | nil => intro st h; exact h
  | cons p rest ih => intro st h; exact ih _ (aggInv_aggStep h)

lemma aggInv_aggregate (expl : List (Str × ℚ)) (special : List Str) :
    AggInv (aggregate expl special) := by
  unfold aggregate
  exact aggInv_recordToken (aggInv_foldl expl _ (by intro kv h; simp at h))

lemma aggMap_keys_ne {expl : List (Str × ℚ)} {special : List Str} {kv : Str × ℚ}
    (h : kv ∈ aggMap expl special) : kv.1 ≠ [] :=
  (aggInv_aggregate expl special kv h).1

lemma aggMap_val_mem {expl : List (Str × ℚ)} {special : List Str} {kv : Str × ℚ}
    (h : kv ∈ aggMap expl special) : kv.2 ∈ aggScores expl special :=
  (aggInv_aggregate expl special kv h).2

/-! ### `min`/`max` over the retained score list -/

lemma foldl_min_le_init (l : List ℚ) : ∀ a : ℚ, l.foldl min a ≤ a := by
  induction l with
  | nil => intro a; simp
  | cons x xs ih =>
    intro a
    calc (x :: xs).foldl min a = xs.foldl min (min a x) := rfl
    _ ≤ min a x := ih _
    _ ≤ a := min_le_left _ _

lemma foldl_min_le_mem {l : List ℚ} {x : ℚ} (h : x ∈ l) :
    ∀ a : ℚ, l.foldl min a ≤ x := by
  induction l with
  | nil => simp at h
  | cons y ys ih =>
    intro a
    rcases List.mem_cons.mp h with rfl | hmem
    · calc (x :: ys).foldl min a = ys.foldl min (min a x) := rfl
      _ ≤ min a x := foldl_min_le_init _ _
      _ ≤ x := min_le_right _ _
    · exact ih hmem _

lemma init_le_foldl_max (l : List ℚ) : ∀ a : ℚ, a ≤ l.foldl max a := by
  induction l with
  | nil => intro a; simp
  | cons x xs ih =>
    intro a
    calc a ≤ max a x := le_max_left _ _
    _ ≤ xs.foldl max (max a x) := ih _
    _ = (x :: xs).foldl max a := rfl

lemma mem_le_foldl_max {l : List ℚ} {x : ℚ} (h : x ∈ l) :
    ∀ a : ℚ, x ≤ l.foldl max a := by
  induction l with
  | nil => simp at h
  | cons y ys ih =>
    intro a
    rcases List.mem_cons.mp h with rfl | hmem
    · calc x ≤ max a x := le_max_right _ _
      _ ≤ ys.foldl max (max a x) := init_le_foldl_max _ _
      _ = (x :: ys).foldl max a := rfl
    · exact ih hmem _

lemma listMin_le {l : List ℚ} {x : ℚ} (h : x ∈ l) : listMin l ≤ x := by
  cases l with
  | nil => simp at h
  | cons y ys =>
    rcases List.mem_cons.mp h with rfl | hmem
    · exact foldl_min_le_init ys x
    · exact foldl_min_le_mem hmem y

lemma le_listMax {l : List ℚ} {x : ℚ} (h : x ∈ l) : x ≤ listMax l := by
  cases l with
  | nil => simp at h
  | cons y ys =>
    rcases List.mem_cons.mp h with rfl | hmem
    · exact init_le_foldl_max ys x
    · exact mem_le_foldl_max hmem y

lemma listMin_le_listMax {l : List ℚ} (h : l ≠ []) : listMin l ≤ listMax l := by
  cases l with
  | nil => exact absurd rfl h
  | cons y ys =>
    exact le_trans (listMin_le (List.mem_cons_self y ys))
      (le_listMax (List.mem_cons_self y ys))

/-! ### Facts about the Normalizer -/

lemma normalizeMap_fst (m : List (Str × ℚ)) (scores : List ℚ) :
    (normalizeMap m scores).map Prod.fst = m.map Prod.fst := by
  unfold normalizeMap
  split <;> simp

lemma normalizeMap_flat {m : List (Str × ℚ)} {scores : List ℚ}
    (hflat : listMax scores = listMin scores) :
    ∀ kv ∈ normalizeMap m scores, kv.2 = 1 / 2 := by
  intro kv hkv
  unfold normalizeMap at hkv
  rw [if_neg (by simp [hflat])] at hkv
  obtain ⟨kw, -, rfl⟩ := List.mem_map.mp hkv
  rfl

lemma normalizeMap_bounds {m : List (Str × ℚ)} {scores : List ℚ}
    (hsub : ∀ kv ∈ m, kv.2 ∈ scores) (hne : scores ≠ []) :
    ∀ kv ∈ normalizeMap m scores, 0 ≤ kv.2 ∧ kv.2 ≤ 1 := by
  intro kv hkv
  unfold normalizeMap at hkv
  split at hkv
  · rename_i hneq
    obtain ⟨kw, hkw, rfl⟩ := List.mem_map.mp hkv
    have hv : kw.2 ∈ scores := hsub kw hkw
    have h1 : listMin scores ≤ kw.2 := listMin_le hv
    have h2 : kw.2 ≤ listMax scores := le_listMax hv
    have h3 : listMin scores < listMax scores :=
      lt_of_le_of_ne (listMin_le_listMax hne) (Ne.symm hneq)
    constructor
    · exact div_nonneg (by linarith) (by linarith)
    · rw [div_le_one (by linarith)]
      linarith
  · obtain ⟨kw, -, rfl⟩ := List.mem_map.mp hkv
    norm_num

/-! ### Key sorting and `token_positions` structure -/

lemma mem_insertByLen {x y : Str} : ∀ {l : List Str}, y ∈ insertByLen x l ↔ y = x ∨ y ∈ l := by
  intro l
  induction l with
  | nil => simp [insertByLen]
  | cons z zs ih =>
    unfold insertByLen
    split
    · simp
    · simp only [List.mem_cons, ih]
      tauto

lemma mem_sortKeysDesc {x : Str} : ∀ {l : List Str}, x ∈ sortKeysDesc l ↔ x ∈ l := by
  intro l
  induction l with
  | nil => simp [sortKeysDesc]
  | cons y ys ih =>
    show x ∈ insertByLen y (sortKeysDesc ys) ↔ _
    rw [mem_insertByLen]
    simp [ih]

lemma mem_tokenPositions {text tl : Str} {keys : List Str} {w : Str}
    {ps : List (ℕ × ℕ)} :
    (w, ps) ∈ tokenPositions text tl keys ↔
      w ∈ keys ∧ ps = scanPositions text tl w ∧ ps ≠ [] := by
  unfold tokenPositions
  rw [List.mem_filterMap]
  constructor
  · rintro ⟨a, ha, hfa⟩
    simp only at hfa
    split at hfa
    · exact absurd hfa (by simp)
    · rename_i hn
      injection hfa with h2
      rw [Prod.mk.injEq] at h2
      obtain ⟨rfl, rfl⟩ := h2
      exact ⟨ha, rfl, hn⟩
  · rintro ⟨hw, rfl, hne⟩
    exact ⟨w, hw, by simp only; rw [if_neg hne]⟩

lemma mem_spanList {tp : List (Str × List (ℕ × ℕ))} {tok : Str} {se : ℕ × ℕ} :
    (tok, se) ∈ spanList tp ↔ ∃ ps, (tok, ps) ∈ tp ∧ se ∈ ps := by
  unfold spanList
  rw [List.mem_flatMap]
  constructor
  · rintro ⟨a, ha, hmem⟩
    obtain ⟨se2, hse2, heq⟩ := List.mem_map.mp hmem
    obtain ⟨rfl, rfl⟩ := Prod.mk.injEq .. ▸ heq
    exact ⟨a.2, by simpa using ha, hse2⟩
  · rintro ⟨ps, hps, hse⟩
    exact ⟨(tok, ps), hps, List.mem_map.mpr ⟨se, hse, rfl⟩⟩

/-- Every recorded span is strictly increasing (its word key is non-empty). -/
def SpansOk (tp : List (Str × List (ℕ × ℕ))) : Prop :=
  ∀ x ∈ spanList tp, x.2.1 < x.2.2

lemma pipelineKeys_ne {expl : List (Str × ℚ)} {special : List Str} {w : Str}
    (h : w ∈ pipelineKeys expl special) : w ≠ [] := by
  unfold pipelineKeys pipelineNmap at h
  rw [mem_sortKeysDesc, normalizeMap_fst] at h
  obtain ⟨kv, hkv, rfl⟩ := List.mem_map.mp h
  exact aggMap_keys_ne hkv

lemma pipelineTp_spansOk (text : Str) (expl : List (Str × ℚ)) (special : List Str) :
    SpansOk (pipelineTp text expl special) := by
  intro x hx
  obtain ⟨tok, se⟩ := x
  obtain ⟨ps, hps, hse⟩ := mem_spanList.mp hx
  obtain ⟨hkey, rfl, -⟩ := mem_tokenPositions.mp hps
  have hw : tok ≠ [] := pipelineKeys_ne hkey
  obtain ⟨p2, e2⟩ := se
  obtain ⟨-, -, rfl⟩ := (mem_scanPositions hw).mp hse
  have : 0 < tok.length := List.length_pos.mpr hw
  simpa using by omega

/-! ### Facts about map lookup -/

lemma lookupD_mem_or (m : List (Str × ℚ)) (k : Str) (d : ℚ) :
    (∃ kv ∈ m, lookupD m k d = kv.2) ∨ lookupD m k d = d := by
  unfold lookupD findScore
  cases h : m.find? (fun kv => decide (kv.1 = k)) with
  | none => right; rfl
  | some kv => exact Or.inl ⟨kv, List.mem_of_find?_eq_some h, rfl⟩

lemma findScore_isSome {m : List (Str × ℚ)} {k : Str}
    (h : ∃ kv ∈ m, kv.1 = k) :
    ∃ kv, kv ∈ m ∧ kv.1 = k ∧ findScore m k = some kv.2 := by
  obtain ⟨kv0, hkv0, hk⟩ := h
  have hsome : (m.find? (fun kv => decide (kv.1 = k))).isSome = true :=
    List.find?_isSome.mpr ⟨kv0, hkv0, by simp [hk]⟩
  obtain ⟨kv, hfind⟩ := Option.isSome_iff_exists.mp hsome
  refine ⟨kv, List.mem_of_find?_eq_some hfind, ?_, by simp [findScore, hfind]⟩
  have := List.find?_some hfind
  simpa using this

/-! ### Facts about the best-span search (`pickFold`) -/

lemma pickStep_cases (nmap : List (Str × ℚ)) (i : ℕ) (acc : Option Str × ℚ × ℕ)
    (x : Str × ℕ × ℕ) :
    pickStep nmap i acc x = acc ∨
      (x.2.1 = i ∧ pickStep nmap i acc x = (some x.1, lookupD nmap x.1 0, x.2.2)) := by
  unfold pickStep
  split
  · split
    · rename_i h1 h2
      exact Or.inr ⟨h1, rfl⟩
    · exact Or.inl rfl
  · exact Or.inl rfl

lemma pickAcc_of_none (nmap : List (Str × ℚ)) (i : ℕ) :
    ∀ (L : List (Str × ℕ × ℕ)) (acc : Option Str × ℚ × ℕ),
      (L.foldl (pickStep nmap i) acc).1 = none → L.foldl (pickStep nmap i) acc = acc := by
  intro L
  induction L with
  | nil => intro acc _; rfl
  | cons x rest ih =>
    intro acc hnone
    rcases pickStep_cases nmap i acc x with heq | ⟨-, hupd⟩
    · rw [List.foldl_cons, heq] at hnone ⊢
      exact ih acc hnone
    · rw [List.foldl_cons, hupd] at hnone ⊢
      have h2 := ih _ hnone
      rw [h2] at hnone
      simp at hnone

lemma pickFold_shape (nmap : List (Str × ℚ)) (i : ℕ) :
    ∀ (L : List (Str × ℕ × ℕ)) (acc : Option Str × ℚ × ℕ),
      L.foldl (pickStep nmap i) acc = acc ∨
        ∃ tok e, L.foldl (pickStep nmap i) acc = (some tok, lookupD nmap tok 0, e) ∧
          (tok, (i, e)) ∈ L := by
  intro L
  induction L with
  | nil => intro acc; exact Or.inl rfl
  | cons x rest ih =>
    intro acc
    rcases pickStep_cases nmap i acc x with heq | ⟨hstart, hupd⟩
    · rw [List.foldl_cons, heq]
      rcases ih acc with h | ⟨tok, e, heq2, hmem⟩
      · exact Or.inl h
      · exact Or.inr ⟨tok, e, heq2, List.mem_cons_of_mem _ hmem⟩
    · rw [List.foldl_cons, hupd]
      rcases ih (some x.1, lookupD nmap x.1 0, x.2.2) with h | ⟨tok, e, heq2, hmem⟩
      · refine Or.inr ⟨x.1, x.2.2, h, ?_⟩
        have hx : x = (x.1, (i, x.2.2)) := by
          rw [← hstart]
        exact hx ▸ List.mem_cons_self x rest
      · exact Or.inr ⟨tok, e, heq2, List.mem_cons_of_mem _ hmem⟩

lemma pickFold_mono (nmap : List (Str × ℚ)) (i : ℕ) :
    ∀ (L : List (Str × ℕ × ℕ)) (acc : Option Str × ℚ × ℕ),
      acc.2.1 ≤ (L.foldl (pickStep nmap i) acc).2.1 := by
  intro L
  induction L with
  | nil => intro acc; exact le_refl _
  | cons x rest ih =>
    intro acc
    rw [List.foldl_cons]
    refine le_trans ?_ (ih (pickStep nmap i acc x))
    unfold pickStep
    split
    · split
      · rename_i h
        exact le_of_lt h
      · exact le_refl _
    · exact le_refl _

lemma pickFold_max (nmap : List (Str × ℚ)) (i : ℕ) :
    ∀ (L : List (Str × ℕ × ℕ)) (acc : Option Str × ℚ × ℕ) (tok : Str) (se : ℕ × ℕ),
      (tok, se) ∈ L → se.1 = i →
        lookupD nmap tok 0 ≤ (L.foldl (pickStep nmap i) acc).2.1 := by
  intro L
  induction L with
  | nil => intro acc tok se h; simp at h
  | cons x rest ih =>
    intro acc tok se hmem hse
    rcases List.mem_cons.mp hmem with heq | hmem2
    · subst heq
      rw [List.foldl_cons]
      refine le_trans ?_ (pickFold_mono nmap i rest _)
      unfold pickStep
      rw [if_pos hse]
      split
      · exact le_refl _
      · rename_i h
        simpa using le_of_not_lt h
    · exact ih _ tok se hmem2 hse

lemma pickFold_isSome {nmap : List (Str × ℚ)} {i : ℕ}
    {tp : List (Str × List (ℕ × ℕ))}
    (h0 : ∀ kv ∈ nmap, 0 ≤ kv.2)
    (hex : ∃ tok e, (tok, (i, e)) ∈ spanList tp) :
    ∃ tok sc e, pickFold nmap i tp = (some tok, sc, e) := by
  obtain ⟨tok, e, hmem⟩ := hex
  have hlook : 0 ≤ lookupD nmap tok 0 := by
    rcases lookupD_mem_or nmap tok 0 with ⟨kv, hkv, heq⟩ | heq
    · rw [heq]; exact h0 kv hkv
    · rw [heq]
  have hge : (0 : ℚ) ≤ (pickFold nmap i tp).2.1 :=
    le_trans hlook (pickFold_max nmap i (spanList tp) _ tok (i, e) hmem rfl)
  cases hcase : (pickFold nmap i tp).1 with
  | none =>
    have := pickAcc_of_none nmap i (spanList tp) (none, -1, i + 1) hcase
    rw [pickFold] at hge
    rw [this] at hge
    norm_num at hge
  | some tok2 =>
    refine ⟨tok2, (pickFold nmap i tp).2.1, (pickFold nmap i tp).2.2, ?_⟩
    rw [← hcase]

/-! ### Facts about `nextStart` and `nextOffset` -/

lemma nextStart_gt {tp : List (Str × List (ℕ × ℕ))} {i textLen : ℕ}
    (h : i < textLen) : i < nextStart textLen tp i := by
  unfold nextStart
  generalize spanList tp = L
  induction L generalizing textLen with
  | nil => exact h
  | cons x rest ih =>
    rw [List.foldl_cons]
    apply ih
    split
    · rename_i hcond
      exact hcond.1
    · exact h

lemma pickFold_some_inv {nmap : List (Str × ℚ)} {i : ℕ}
    {tp : List (Str × List (ℕ × ℕ))} {tok : Str} {sc : ℚ} {e : ℕ}
    (h : pickFold nmap i tp = (some tok, sc, e)) :
    (tok, (i, e)) ∈ spanList tp ∧ sc = lookupD nmap tok 0 := by
  rcases pickFold_shape nmap i (spanList tp) (none, -1, i + 1) with heq | ⟨tok2, e2, heq, hmem⟩
  · rw [pickFold] at h
    rw [heq] at h
    simp at h
  · rw [pickFold] at h
    rw [heq] at h
    rw [Prod.mk.injEq, Prod.mk.injEq] at h
    obtain ⟨h1, h2, h3⟩ := h
    injection h1 with h1
    subst h1; subst h2; subst h3
    exact ⟨hmem, rfl⟩

lemma nextOffset_gt {nmap : List (Str × ℚ)} {tp : List (Str × List (ℕ × ℕ))}
    {textLen i : ℕ} (hsp : SpansOk tp) (h : i < textLen) :
    i < nextOffset nmap tp textLen i := by
  unfold nextOffset
  cases hpick : pickFold nmap i tp with
  | mk o rest =>
    obtain ⟨sc, e⟩ := rest
    cases o with
    | none => exact nextStart_gt h
    | some tok =>
      obtain ⟨hmem, -⟩ := pickFold_some_inv hpick
      simpa using hsp (tok, (i, e)) hmem

/-! ### Facts about the segment-building loop -/

lemma joinTexts_append (a b : List Segment) :
    joinTexts (a ++ b) = joinTexts a ++ joinTexts b := by
  simp [joinTexts]

lemma slice_append_drop {s : Str} {i n : ℕ} (h : i ≤ n) :
    slice s i n ++ s.drop n = s.drop i := by
  have h2 : s.drop n = (s.drop i).drop (n - i) := by
    rw [List.drop_drop]
    congr 1
    omega
  rw [slice, h2, List.take_append_drop]

lemma joinTexts_emitAt (minC maxC text : Str) (tp : List (Str × List (ℕ × ℕ)))
    (nmap : List (Str × ℚ)) (i : ℕ) :
    joinTexts (emitAt minC maxC text tp nmap i) =
      slice text i (nextOffset nmap tp text.length i) := by
  unfold emitAt nextOffset
  cases hpick : pickFold nmap i tp with
  | mk o rest =>
    obtain ⟨sc, e⟩ := rest
    cases o with
    | some tok => simp [joinTexts]
    | none =>
      by_cases hpl : slice text i (nextStart text.length tp i) = []
      · simp [joinTexts, hpl]
      · simp [joinTexts, hpl]

lemma buildLoop_join {minC maxC text : Str} {tp : List (Str × List (ℕ × ℕ))}
    {nmap : List (Str × ℚ)} (hsp : SpansOk tp) :
    ∀ (fuel i : ℕ), text.length ≤ fuel + i →
      joinTexts (buildLoop minC maxC text tp nmap fuel i) = text.drop i := by
  intro fuel
  induction fuel with
  | zero =>
    intro i hfi
    rw [buildLoop]
    simp only [joinTexts, List.map_nil, List.flatten_nil]
    exact (List.drop_eq_nil_of_le (by omega)).symm
  | succ fuel ih =>
    intro i hfi
    rw [buildLoop]
    split
    · rename_i hil
      rw [joinTexts_append, joinTexts_emitAt]
      have hgt : i < nextOffset nmap tp text.length i := nextOffset_gt hsp hil
      rw [ih (nextOffset nmap tp text.length i) (by omega)]
      exact slice_append_drop (by omega)
    · rename_i hil
      simp only [joinTexts, List.map_nil, List.flatten_nil]
      exact (List.drop_eq_nil_of_le (by omega)).symm

lemma buildLoop_score_cases {minC maxC text : Str} {tp : List (Str × List (ℕ × ℕ))}
    {nmap : List (Str × ℚ)} :
    ∀ (fuel i : ℕ) (s : Segment), s ∈ buildLoop minC maxC text tp nmap fuel i →
      s.score = 0 ∨ ∃ kv ∈ nmap, s.score = kv.2 := by
  intro fuel
  induction fuel with
  | zero => intro i s h; rw [buildLoop] at h; simp at h
  | succ fuel ih =>
    intro i s h
    rw [buildLoop] at h
    split at h
    · rcases List.mem_append.mp h with hem | hrec
      · unfold emitAt at hem
        cases hpick : pickFold nmap i tp with
        | mk o rest =>
          obtain ⟨sc, e⟩ := rest
          rw [hpick] at hem
          cases o with
          | some tok =>
            simp only [List.mem_singleton] at hem
            subst hem
            obtain ⟨-, hsc⟩ := pickFold_some_inv hpick
            rcases lookupD_mem_or nmap tok 0 with ⟨kv, hkv, heq⟩ | heq
            · exact Or.inr ⟨kv, hkv, by simp [hsc, heq]⟩
            · exact Or.inl (by simp [hsc, heq])
          | none =>
            simp only at hem
            split at hem
            · simp at hem
            · simp only [List.mem_singleton] at hem
              subst hem
              exact Or.inl rfl
      · exact ih _ s hrec
    · simp at h

/-! ### Remaining helper lemmas -/

lemma aggStep_special {special : List Str} {st : AggState} {p : Str × ℚ}
    (h : p.1 ∈ special) : aggStep special st p = st := by
  unfold aggStep
  rw [if_pos h]

lemma foldl_aggStep_special {special : List Str} :
    ∀ (expl : List (Str × ℚ)) (st : AggState), (∀ p ∈ expl, p.1 ∈ special) →
      expl.foldl (aggStep special) st = st := by
  intro expl
  induction expl with
  | nil => intro st _; rfl
  | cons p rest ih =>
    intro st h
    rw [List.foldl_cons, aggStep_special (h p (List.mem_cons_self p rest))]
    exact ih st (fun q hq => h q (List.mem_cons_of_mem p hq))

lemma aggregate_allSpecial {expl : List (Str × ℚ)} {special : List Str}
    (h : ∀ p ∈ expl, p.1 ∈ special) : aggregate expl special = ⟨[], [], []⟩ := by
  unfold aggregate
  rw [foldl_aggStep_special expl _ h]
  rw [recordToken, if_neg (by simp)]

lemma spanKey_mem_nmap {text : Str} {expl : List (Str × ℚ)} {special : List Str}
    {tok : Str} {se : ℕ × ℕ}
    (h : (tok, se) ∈ spanList (pipelineTp text expl special)) :
    ∃ kv ∈ pipelineNmap expl special, kv.1 = tok := by
  unfold pipelineTp at h
  obtain ⟨ps, hps, -⟩ := mem_spanList.mp h
  obtain ⟨hkey, -, -⟩ := mem_tokenPositions.mp hps
  unfold pipelineKeys at hkey
  rw [mem_sortKeysDesc] at hkey
  obtain ⟨kv, hkv, rfl⟩ := List.mem_map.mp hkey
  exact ⟨kv, hkv, rfl⟩

/-! ### The claims -/

attribute [local semireducible] Rat.mul Rat.inv Rat.add Rat.sub

/-- C1: for every pair of inputs (text, explanation) and any special-token set,
concatenating, in order, the text fields of all segments returned by
`createHighlightedText` yields exactly the original text string. -/
theorem claim_C1_lossless_partition (minC maxC text : Str) (expl : List (Str × ℚ))
    (special : List Str) :
    joinTexts (createHighlightedText minC maxC text expl special) = text := by
  unfold createHighlightedText
  split
  · simp [joinTexts]
  · split
    · simp [joinTexts]
    · have h := @buildLoop_join minC maxC text (pipelineTp text expl special)
        (pipelineNmap expl special) (pipelineTp_spansOk text expl special)
        (text.length + 1) 0 (by omega)
      simpa using h

/-- C2 counterexample: with explanation `[("flo", 0.3), ("##od", 0.7)]`, the merged
word key "flood" is recorded with score 0.7 (the score of the *last* explanation
pair, installed by the end-of-loop finalization), not 0.3 as the claim states. -/
theorem claim_C2_counterexample :
    findScore (aggMap [("flo".toList, 3 / 10), (['#', '#', 'o', 'd'], 7 / 10)]
        defaultSpecial) "flood".toList = some (7 / 10) ∧
      findScore (aggMap [("flo".toList, 3 / 10), (['#', '#', 'o', 'd'], 7 / 10)]
          defaultSpecial) "flood".toList ≠ some (3 / 10) := by
  decide

/-- C2 amended: on explanation `[("flo", 0.3), ("##od", 0.7)]` the aggregator
records the starting token "flo" as its own key with score 0.3 and, at the
end-of-list finalization, keys the merged word "flood" with the score of the
last explanation pair (0.7); the merged word is then matched whole in
"flood hits city". -/
theorem claim_C2_subword_merge :
    aggMap [("flo".toList, 3 / 10), (['#', '#', 'o', 'd'], 7 / 10)] defaultSpecial =
      [("flo".toList, 3 / 10), ("flood".toList, 7 / 10)] ∧
    (createHighlightedText defaultMinColor defaultMaxColor "flood hits city".toList
        [("flo".toList, 3 / 10), (['#', '#', 'o', 'd'], 7 / 10)] defaultSpecial).map
        (fun s => (s.text, s.score)) =
      [("flood".toList, 1), (" hits city".toList, 0)] := by
  decide

/-- C3 counterexample: on text "Need water now" with explanation
`[("need", 0.2), ("water", 0.9), ("now", 0.1)]`, the word "need" normalizes to
(0.2 - 0.1) / (0.9 - 0.1) = 0.125, not 0.111, and no output segment carries
score 0.111. -/
theorem claim_C3_counterexample :
    findScore (pipelineNmap [("need".toList, 2 / 10), ("water".toList, 9 / 10),
        ("now".toList, 1 / 10)] defaultSpecial) "need".toList = some (1 / 8) ∧
    (1 : ℚ) / 8 ≠ 111 / 1000 ∧
    (createHighlightedText defaultMinColor defaultMaxColor "Need water now".toList
        [("need".toList, 2 / 10), ("water".toList, 9 / 10), ("now".toList, 1 / 10)]
        defaultSpecial).map Segment.score = [1 / 8, 0, 1, 0, 0] := by
  decide

/-- C3 amended: scenario A yields segments "Need", " ", "water", " ", "now" with
"water" at normalized score 1.0, "need" at 0.125 and "now" at 0.0, and the
highlighted segments carry exactly these scores. -/
theorem claim_C3_scenarioA :
    (createHighlightedText defaultMinColor defaultMaxColor "Need water now".toList
        [("need".toList, 2 / 10), ("water".toList, 9 / 10), ("now".toList, 1 / 10)]
        defaultSpecial).map (fun s => (s.text, s.score)) =
      [("Need".toList, 1 / 8), (" ".toList, 0), ("water".toList, 1), (" ".toList, 0),
        ("now".toList, 0)] ∧
    findScore (pipelineNmap [("need".toList, 2 / 10), ("water".toList, 9 / 10),
        ("now".toList, 1 / 10)] defaultSpecial) "water".toList = some 1 ∧
    findScore (pipelineNmap [("need".toList, 2 / 10), ("water".toList, 9 / 10),
        ("now".toList, 1 / 10)] defaultSpecial) "now".toList = some 0 := by
  decide

/-- C4 counterexample: with empty text and the non-empty explanation
`[("need", 0.2)]`, the function returns a one-element list (the whole-text
fallback segment), not the empty list the claim states. -/
theorem claim_C4_counterexample :
    createHighlightedText defaultMinColor defaultMaxColor []
        [("need".toList, 1 / 5)] defaultSpecial ≠ [] ∧
      (createHighlightedText defaultMinColor defaultMaxColor []
          [("need".toList, 1 / 5)] defaultSpecial).length = 1 := by
  decide

/-- C4 amended: for every explanation list and special-token set, calling
`createHighlightedText` with an empty text string returns the one-element
fallback list containing the empty plain segment `("", "#000000", 0)`. -/
theorem claim_C4_empty_text (minC maxC : Str) (expl : List (Str × ℚ))
    (special : List Str) :
    createHighlightedText minC maxC [] expl special =
      [{ text := [], color := black, score := 0 }] := by
  unfold createHighlightedText
  split
  · rfl
  · have hb : buildLoop minC maxC [] (pipelineTp [] expl special)
        (pipelineNmap expl special) (List.length ([] : Str) + 1) 0 = [] := rfl
    rw [if_pos hb]

/-- C5: if all retained scores are equal (global max equals global min over the
retained score list), every word's normalized value is exactly 0.5, every span
selected by the best-span search has score exactly 0.5, and every output
segment carries score 0 (plain) or exactly 0.5 (highlighted). -/
theorem claim_C5_flat_scores (minC maxC text : Str) (expl : List (Str × ℚ))
    (special : List Str)
    (hflat : listMax (aggScores expl special) = listMin (aggScores expl special)) :
    (∀ kv ∈ pipelineNmap expl special, kv.2 = 1 / 2) ∧
    (∀ (i : ℕ) (tok : Str) (sc : ℚ) (e : ℕ),
        pickFold (pipelineNmap expl special) i (pipelineTp text expl special) =
          (some tok, sc, e) → sc = 1 / 2) ∧
    (∀ s ∈ createHighlightedText minC maxC text expl special,
        s.score = 0 ∨ s.score = 1 / 2) := by
  have hval : ∀ kv ∈ pipelineNmap expl special, kv.2 = 1 / 2 := by
    intro kv hkv
    unfold pipelineNmap at hkv
    exact normalizeMap_flat hflat kv hkv
  refine ⟨hval, ?_, ?_⟩
  · intro i tok sc e hpick
    obtain ⟨hmem, hsc⟩ := pickFold_some_inv hpick
    obtain ⟨kv2, hkv2, hk2, hfind⟩ := findScore_isSome (spanKey_mem_nmap hmem)
    rw [hsc]
    unfold lookupD
    rw [hfind]
    simpa using hval kv2 hkv2
  · intro s hs
    unfold createHighlightedText at hs
    split at hs
    · simp only [List.mem_singleton] at hs
      subst hs
      exact Or.inl rfl
    · split at hs
      · simp only [List.mem_singleton] at hs
        subst hs
        exact Or.inl rfl
      · rcases buildLoop_score_cases _ _ s hs with h0 | ⟨kv, hkv, heq⟩
        · exact Or.inl h0
        · right
          rw [heq]
          exact hval kv hkv

/-- C6: every segment returned by `createHighlightedText` carries a score in
the closed interval [0, 1]. -/
theorem claim_C6_score_bounded (minC maxC text : Str) (expl : List (Str × ℚ))
    (special : List Str) :
    ∀ s ∈ createHighlightedText minC maxC text expl special,
      0 ≤ s.score ∧ s.score ≤ 1 := by
  intro s hs
  unfold createHighlightedText at hs
  split at hs
  · simp only [List.mem_singleton] at hs
    subst hs
    norm_num
  · rename_i hcond
    push_neg at hcond
    split at hs
    · simp only [List.mem_singleton] at hs
      subst hs
      norm_num
    · rcases buildLoop_score_cases _ _ s hs with h0 | ⟨kv, hkv, heq⟩
      · rw [h0]
        norm_num
      · unfold pipelineNmap at hkv
        have hb := normalizeMap_bounds (fun kw hkw => aggMap_val_mem hkw)
          hcond.1 kv hkv
        rw [heq]
        exact hb

/-- C7: the text locator records a span (p, p + len w) for word key w if and
only if the lower-cased text contains w starting at p, the character right
before p (if any) is not alphanumeric, and the character right after the match
end (if any) is not alphanumeric; resuming after each attempted position makes
the characterization exhaustive. -/
theorem claim_C7_locator_spans (text w : Str) (hw : w ≠ []) (p e : ℕ) :
    (p, e) ∈ scanPositions text (toLowerStr text) w ↔
      ((toLowerStr text).drop p).take w.length = w ∧
        (p = 0 ∨ isAlnumAt text (p - 1) = false) ∧
        (text.length ≤ p + w.length ∨ isAlnumAt text (p + w.length) = false) ∧
        e = p + w.length := by
  rw [mem_scanPositions hw]
  unfold occursAt boundaryOk
  simp only [Bool.and_eq_true, Bool.or_eq_true, decide_eq_true_eq, Bool.not_eq_true']
  tauto

/-- C8: whenever at least one match span starts at the current offset i, the
best-span search succeeds and returns a span starting at i whose normalized
score is maximal among all spans starting at i, and the segment-building loop
emits exactly that span as a highlighted segment and advances to its end. -/
theorem claim_C8_greedy_selection (minC maxC text : Str)
    (tp : List (Str × List (ℕ × ℕ))) (nmap : List (Str × ℚ)) (fuel i : ℕ)
    (h0 : ∀ kv ∈ nmap, 0 ≤ kv.2)
    (hex : ∃ tok e, (tok, (i, e)) ∈ spanList tp) :
    ∃ tok sc e, pickFold nmap i tp = (some tok, sc, e) ∧
      (tok, (i, e)) ∈ spanList tp ∧
      sc = lookupD nmap tok 0 ∧
      (∀ tok2 e2, (tok2, (i, e2)) ∈ spanList tp → lookupD nmap tok2 0 ≤ sc) ∧
      (i < text.length →
        buildLoop minC maxC text tp nmap (fuel + 1) i =
          { text := slice text i e, color := interpolateColor minC maxC sc,
            score := sc } :: buildLoop minC maxC text tp nmap fuel e) := by
  obtain ⟨tok, sc, e, hpick⟩ := pickFold_isSome h0 hex
  obtain ⟨hmem, hsc⟩ := pickFold_some_inv hpick
  refine ⟨tok, sc, e, hpick, hmem, hsc, ?_, ?_⟩
  · intro tok2 e2 hmem2
    have h2 := pickFold_max nmap i (spanList tp) (none, -1, i + 1) tok2 (i, e2) hmem2 rfl
    rw [show (spanList tp).foldl (pickStep nmap i) (none, -1, i + 1) =
      pickFold nmap i tp from rfl, hpick] at h2
    exact h2
  · intro hil
    rw [buildLoop, if_pos hil]
    unfold emitAt nextOffset
    rw [hpick]
    rfl

/-- C9: for every non-empty text, if the explanation list is empty or consists
only of special tokens, `createHighlightedText` returns exactly one plain
segment covering the entire text with score 0. -/
theorem claim_C9_all_special (minC maxC text : Str) (expl : List (Str × ℚ))
    (special : List Str) (_htext : text ≠ [])
    (h : expl = [] ∨ ∀ p ∈ expl, p.1 ∈ special) :
    createHighlightedText minC maxC text expl special =
      [{ text := text, color := black, score := 0 }] := by
  have hall : ∀ p ∈ expl, p.1 ∈ special := by
    rcases h with rfl | h2
    · intro p hp
      simp at hp
    · exact h2
  have hscores : aggScores expl special = [] := by
    unfold aggScores
    rw [aggregate_allSpecial hall]
  unfold createHighlightedText
  rw [if_pos (Or.inl hscores)]

/-- C10: `createHighlightedText` is total because the segment-building loop's
offset strictly increases on every iteration: from any offset i below the text
length, the loop emits at most one segment and recurses at the strictly larger
offset `nextOffset`. -/
theorem claim_C10_offset_increases (minC maxC text : Str) (expl : List (Str × ℚ))
    (special : List Str) (i : ℕ) (hi : i < text.length) :
    i < nextOffset (pipelineNmap expl special) (pipelineTp text expl special)
        text.length i ∧
      ∀ fuel : ℕ,
        buildLoop minC maxC text (pipelineTp text expl special)
            (pipelineNmap expl special) (fuel + 1) i =
          emitAt minC maxC text (pipelineTp text expl special)
              (pipelineNmap expl special) i ++
            buildLoop minC maxC text (pipelineTp text expl special)
              (pipelineNmap expl special) fuel
              (nextOffset (pipelineNmap expl special) (pipelineTp text expl special)
                text.length i) := by
  refine ⟨nextOffset_gt (pipelineTp_spansOk text expl special) hi, ?_⟩
  intro fuel
  rw [buildLoop, if_pos hi]

/-! ### Concrete witnesses for the hypothesis-bearing claims -/

/-- Witness for C5: a concrete flat-score run where every segment score is 0 or 0.5. -/
theorem claim_C5_flat_scores_witness :
    listMax (aggScores [(['a'], 2 / 7), (['b'], 2 / 7)] defaultSpecial) =
        listMin (aggScores [(['a'], 2 / 7), (['b'], 2 / 7)] defaultSpecial) ∧
      ∀ s ∈ createHighlightedText defaultMinColor defaultMaxColor "a b".toList
          [(['a'], 2 / 7), (['b'], 2 / 7)] defaultSpecial,
        s.score = 0 ∨ s.score = 1 / 2 :=
  ⟨by decide,
    (claim_C5_flat_scores defaultMinColor defaultMaxColor "a b".toList
        [(['a'], 2 / 7), (['b'], 2 / 7)] defaultSpecial (by decide)).2.2⟩

/-- Witness for C6: the bound holds for a concrete output segment. -/
theorem claim_C6_score_bounded_witness :
    0 ≤ (Segment.mk "hello".toList black 0).score ∧
      (Segment.mk "hello".toList black 0).score ≤ 1 :=
  claim_C6_score_bounded defaultMinColor defaultMaxColor "hello".toList [] defaultSpecial
    (Segment.mk "hello".toList black 0) (by decide)

/-- Witness for C7: the characterization instantiated at "cat" in "cat category". -/
theorem claim_C7_locator_spans_witness :
    ("cat".toList ≠ ([] : Str)) ∧
      ((0, 3) ∈ scanPositions "cat category".toList
          (toLowerStr "cat category".toList) "cat".toList ↔
        ((toLowerStr "cat category".toList).drop 0).take
            (List.length "cat".toList) = "cat".toList ∧
          (0 = 0 ∨ isAlnumAt "cat category".toList (0 - 1) = false) ∧
          (List.length "cat category".toList ≤ 0 + List.length "cat".toList ∨
            isAlnumAt "cat category".toList (0 + List.length "cat".toList) = false) ∧
          3 = 0 + List.length "cat".toList) :=
  ⟨by decide, claim_C7_locator_spans "cat category".toList "cat".toList (by decide) 0 3⟩

/-- Witness for C8: the greedy selection at offset 0 of a concrete span table. -/
theorem claim_C8_greedy_selection_witness :
    ∃ tok sc e,
      pickFold [(['a'], 1 / 2), (['b'], 1 / 2)] 0
          [(['a'], [(0, 1)]), (['b'], [(2, 3)])] = (some tok, sc, e) ∧
        (tok, (0, e)) ∈ spanList [(['a'], [(0, 1)]), (['b'], [(2, 3)])] ∧
        sc = lookupD [(['a'], 1 / 2), (['b'], 1 / 2)] tok 0 ∧
        (∀ tok2 e2, (tok2, (0, e2)) ∈ spanList [(['a'], [(0, 1)]), (['b'], [(2, 3)])] →
          lookupD [(['a'], 1 / 2), (['b'], 1 / 2)] tok2 0 ≤ sc) ∧
        (0 < List.length "a b".toList →
          buildLoop defaultMinColor defaultMaxColor "a b".toList
              [(['a'], [(0, 1)]), (['b'], [(2, 3)])] [(['a'], 1 / 2), (['b'], 1 / 2)]
              (4 + 1) 0 =
            { text := slice "a b".toList 0 e,
              color := interpolateColor defaultMinColor defaultMaxColor sc,
              score := sc } ::
              buildLoop defaultMinColor defaultMaxColor "a b".toList
                [(['a'], [(0, 1)]), (['b'], [(2, 3)])]
                [(['a'], 1 / 2), (['b'], 1 / 2)] 4 e) :=
  claim_C8_greedy_selection defaultMinColor defaultMaxColor "a b".toList
    [(['a'], [(0, 1)]), (['b'], [(2, 3)])] [(['a'], 1 / 2), (['b'], 1 / 2)] 4 0
    (by decide) ⟨['a'], 1, by decide⟩

/-- Witness for C9: an all-special explanation on a concrete non-empty text. -/
theorem claim_C9_all_special_witness :
    createHighlightedText defaultMinColor defaultMaxColor "hello world".toList
        [("[CLS]".toList, 5), ("[SEP]".toList, 2)] defaultSpecial =
      [{ text := "hello world".toList, color := black, score := 0 }] :=
  claim_C9_all_special defaultMinColor defaultMaxColor "hello world".toList
    [("[CLS]".toList, 5), ("[SEP]".toList, 2)] defaultSpecial (by decide)
    (Or.inr (by decide))

/-- Witness for C10: the offset strictly increases at offset 0 of a concrete run. -/
theorem claim_C10_offset_increases_witness :
    0 < nextOffset (pipelineNmap [(['a'], 1), (['b'], 2)] defaultSpecial)
        (pipelineTp "a b".toList [(['a'], 1), (['b'], 2)] defaultSpecial)
        (List.length "a b".toList) 0 ∧
      ∀ fuel : ℕ,
        buildLoop defaultMinColor defaultMaxColor "a b".toList
            (pipelineTp "a b".toList [(['a'], 1), (['b'], 2)] defaultSpecial)
            (pipelineNmap [(['a'], 1), (['b'], 2)] defaultSpecial) (fuel + 1) 0 =
          emitAt defaultMinColor defaultMaxColor "a b".toList
              (pipelineTp "a b".toList [(['a'], 1), (['b'], 2)] defaultSpecial)
              (pipelineNmap [(['a'], 1), (['b'], 2)] defaultSpecial) 0 ++
            buildLoop defaultMinColor defaultMaxColor "a b".toList
              (pipelineTp "a b".toList [(['a'], 1), (['b'], 2)] defaultSpecial)
              (pipelineNmap [(['a'], 1), (['b'], 2)] defaultSpecial) fuel
              (nextOffset (pipelineNmap [(['a'], 1), (['b'], 2)] defaultSpecial)
                (pipelineTp "a b".toList [(['a'], 1), (['b'], 2)] defaultSpecial)
                (List.length "a b".toList) 0) :=
  claim_C10_offset_increases defaultMinColor defaultMaxColor "a b".toList
    [(['a'], 1), (['b'], 2)] defaultSpecial 0 (by decide)

end TokenHighlighter
